import Mathlib

/-!
Verification of the selection-and-reconciliation core of the
agent-skills-installer CLI.

JavaScript strings are modelled as `List Char` (`Str`); JavaScript `Set`
objects are modelled as duplicate-free lists in insertion order; effectful
functions (`sparseCloneSkills`, `updateSparseCheckout`, ...) are modelled as
pure functions from an explicit environment (success/failure of each git
invocation, pre-existing directory contents) to an action trace plus result.
-/

namespace AgentSkillsInstaller

/-- JavaScript strings are modelled as lists of characters. -/
abbrev Str := List Char

/-! ## Selection diff (runSkillsInstall / runSubagentsInstall, manage mode)

Source (`src/unnamed/part_006`):
  const toAdd = selectedSkills.filter(s => !installedSkills.includes(s));
  const toRemove = installedSkills.filter(s => !selectedSkills.includes(s));
  const unchanged = selectedSkills.filter(s => installedSkills.includes(s));
-/

/-- Items selected now but not previously installed. -/
def toAdd (installed selected : List Str) : List Str :=
  selected.filter (fun s => !(installed.contains s))

/-- Items previously installed but no longer selected. -/
def toRemove (installed selected : List Str) : List Str :=
  installed.filter (fun s => !(selected.contains s))

/-- Items selected now and also previously installed. -/
def unchanged (installed selected : List Str) : List Str :=
  selected.filter (fun s => installed.contains s)

lemma mem_toAdd {installed selected : List Str} {x : Str} :
    x ∈ toAdd installed selected ↔ x ∈ selected ∧ x ∉ installed := by
  simp [toAdd, List.mem_filter]

lemma mem_toRemove {installed selected : List Str} {x : Str} :
    x ∈ toRemove installed selected ↔ x ∈ installed ∧ x ∉ selected := by
  simp [toRemove, List.mem_filter]

lemma mem_unchanged {installed selected : List Str} {x : Str} :
    x ∈ unchanged installed selected ↔ x ∈ selected ∧ x ∈ installed := by
  simp [unchanged, List.mem_filter]

/-- **C1.** For duplicate-free installed/selected lists, the diff triple is a
pairwise-disjoint partition with added ∪ unchanged = selected and
removed ∪ unchanged = installed. -/
theorem computeDiff_partition (old new : List Str)
    (_hold : old.Nodup) (_hnew : new.Nodup) :
    ((toAdd old new).toFinset ∪ (unchanged old new).toFinset = new.toFinset) ∧
    ((toRemove old new).toFinset ∪ (unchanged old new).toFinset = old.toFinset) ∧
    Disjoint (toAdd old new).toFinset (toRemove old new).toFinset ∧
    Disjoint (toAdd old new).toFinset (unchanged old new).toFinset ∧
    Disjoint (toRemove old new).toFinset (unchanged old new).toFinset := by
  refine ⟨?_, ?_, ?_, ?_, ?_⟩
  · ext x
    simp only [Finset.mem_union, List.mem_toFinset, mem_toAdd, mem_unchanged]
    constructor
    · rintro (⟨h, _⟩ | ⟨h, _⟩) <;> exact h
    · intro hx
      by_cases hxo : x ∈ old
      · exact Or.inr ⟨hx, hxo⟩
      · exact Or.inl ⟨hx, hxo⟩
  · ext x
    simp only [Finset.mem_union, List.mem_toFinset, mem_toRemove, mem_unchanged]
    constructor
    · rintro (⟨h, _⟩ | ⟨_, h⟩) <;> exact h
    · intro hx
      by_cases hxn : x ∈ new
      · exact Or.inr ⟨hxn, hx⟩
      · exact Or.inl ⟨hx, hxn⟩
  · rw [Finset.disjoint_left]
    intro x hx hx'
    rw [List.mem_toFinset, mem_toAdd] at hx
    rw [List.mem_toFinset, mem_toRemove] at hx'
    exact hx.2 hx'.1
  · rw [Finset.disjoint_left]
    intro x hx hx'
    rw [List.mem_toFinset, mem_toAdd] at hx
    rw [List.mem_toFinset, mem_unchanged] at hx'
    exact hx.2 hx'.2
  · rw [Finset.disjoint_left]
    intro x hx hx'
    rw [List.mem_toFinset, mem_toRemove] at hx
    rw [List.mem_toFinset, mem_unchanged] at hx'
    exact hx.2 hx'.1

/-- Concrete instantiation of `computeDiff_partition` at old = ["a","b"],
new = ["a","d"]. -/
theorem computeDiff_partition_witness :
    (["a".data, "b".data].Nodup ∧ ["a".data, "d".data].Nodup) ∧
    ((toAdd ["a".data, "b".data] ["a".data, "d".data]).toFinset ∪
      (unchanged ["a".data, "b".data] ["a".data, "d".data]).toFinset =
      (["a".data, "d".data] : List Str).toFinset) := by
  refine ⟨⟨by decide, by decide⟩, ?_⟩
  exact (computeDiff_partition ["a".data, "b".data] ["a".data, "d".data]
    (by decide) (by decide)).1

/-! ## Sparse-checkout pattern encoding and decoding (src/lib/git.js)

Encoding: `skillFolders.map(folder => '/folder/')` in `sparseCloneSkills` /
`updateSparseCheckout`, and `agentFilenames.map(filename => '/filename')` in
`sparseCloneSubagents` / `updateSubagentsSparseCheckout`.

Decoding: `listCheckedOutSkills` maps `p.replace(/^\/|\/$/g, '')` over the
pattern lines and keeps `p && !p.startsWith('.')`; `listCheckedOutSubagents`
maps `p.replace(/^\//, '')` and keeps `p.endsWith('.agent.md')`.
-/

/-- Skill pattern shape: the folder name wrapped in slashes. -/
def skillPattern (folder : Str) : Str := '/' :: folder ++ ['/']

/-- Subagent pattern shape: the filename with a leading slash. -/
def subagentPattern (filename : Str) : Str := '/' :: filename

/-- Removal of one leading slash, as in `p.replace(/^\//, '')`. -/
def stripLeadingSlash : Str → Str
  | '/' :: rest => rest
  | s => s

/-- Removal of one trailing slash. -/
def stripTrailingSlash (s : Str) : Str :=
  if s.getLast? = some '/' then s.dropLast else s

/-- Removal of one leading and one trailing slash, as in
`p.replace(/^\/|\/$/g, '')`: the regex can only match at the very first and
very last character, so the global replace removes at most one slash at each
end of the original string. -/
def stripSlashes (s : Str) : Str := stripTrailingSlash (stripLeadingSlash s)

/-- Test for a leading dot, as in `p.startsWith('.')`. -/
def startsWithDot : Str → Bool
  | '.' :: _ => true
  | _ => false

/-- Test for the subagent filename suffix, `p.endsWith('.agent.md')`. -/
def endsWithAgentMd (s : Str) : Bool := ".agent.md".data.isSuffixOf s

/-- Decoding of a single skill pattern line: strip the surrounding slashes
and keep the result only if it is non-empty and not dot-prefixed. -/
def decodeSkillPattern (p : Str) : Option Str :=
  let q := stripSlashes p
  if !q.isEmpty && !startsWithDot q then some q else none

/-- Decoding of a single subagent pattern line: strip the leading slash and
keep the result only if it ends in the subagent suffix. -/
def decodeSubagentPattern (p : Str) : Option Str :=
  let q := stripLeadingSlash p
  if endsWithAgentMd q then some q else none

lemma stripSlashes_skillPattern (id : Str) : stripSlashes (skillPattern id) = id := by
  unfold stripSlashes skillPattern stripLeadingSlash stripTrailingSlash
  simp

lemma stripLeadingSlash_subagentPattern (id : Str) :
    stripLeadingSlash (subagentPattern id) = id := rfl

/-- **C2 counterexample.** The subagent shape does not round-trip the valid
identifier "a" (no path separator, no leading dot): decoding drops it because
it does not end in ".agent.md". The skill shape likewise fails to round-trip
the empty identifier. -/
theorem patternRoundTrip_counterexample :
    decodeSubagentPattern (subagentPattern "a".data) = none ∧
    decodeSkillPattern (skillPattern ([] : Str)) = none := by
  constructor <;> decide

/-- **C2 amended.** For identifiers with no path separator and no leading
dot: the Skill shape round-trips whenever the identifier is non-empty, and
the Subagent shape round-trips whenever the identifier additionally ends in
".agent.md". -/
theorem patternRoundTrip_amended (id : Str)
    (_hsep : '/' ∉ id) (_hdot : startsWithDot id = false) :
    (id ≠ [] → decodeSkillPattern (skillPattern id) = some id) ∧
    (endsWithAgentMd id = true → decodeSubagentPattern (subagentPattern id) = some id) := by
  constructor
  · intro hne
    unfold decodeSkillPattern
    rw [stripSlashes_skillPattern]
    simp [hne, _hdot]
  · intro hmd
    unfold decodeSubagentPattern
    rw [stripLeadingSlash_subagentPattern]
    simp [hmd]

/-- Concrete instantiation of `patternRoundTrip_amended` at the skill
identifier "canvas-design" and the subagent identifier "Dev.agent.md". -/
theorem patternRoundTrip_amended_witness :
    decodeSkillPattern (skillPattern "canvas-design".data) = some "canvas-design".data ∧
    decodeSubagentPattern (subagentPattern "Dev.agent.md".data) = some "Dev.agent.md".data := by
  constructor
  · exact (patternRoundTrip_amended "canvas-design".data (by decide) (by decide)).1
      (by decide)
  · exact (patternRoundTrip_amended "Dev.agent.md".data (by decide) (by decide)).2
      (by decide)

/-! ## Persisted sparse-checkout pattern file (src/lib/git.js)

Writing: `patterns = skillFolders.map(f => '/f/').join('\n')` and
`writeFileSync(sparseCheckoutPath, patterns + '\n')`.

Reading (`listCheckedOutSkills`): `content.split('\n').filter(Boolean)`,
then per-pattern decoding as above.
-/

/-- Array.prototype.join with a newline separator. -/
def joinNl : List Str → Str
  | [] => []
  | [l] => l
  | l :: ls => l ++ '\n' :: joinNl ls

/-- String.prototype.split on a newline separator; on the empty string it
yields one empty piece, as in JavaScript. -/
def splitNl : Str → List Str
  | [] => [[]]
  | c :: rest =>
    if c = '\n' then [] :: splitNl rest
    else
      match splitNl rest with
      | [] => [[c]]
      | l :: ls => (c :: l) :: ls

/-- Content written to .git/info/sparse-checkout for a skill selection. -/
def sparseFileOfSkills (folders : List Str) : Str :=
  joinNl (folders.map skillPattern) ++ ['\n']

/-- Skill identifiers decoded from a sparse-checkout file's content, as in
`listCheckedOutSkills`. -/
def listCheckedOutSkillsOfContent (content : Str) : List Str :=
  ((((splitNl content).filter (fun l => !l.isEmpty)).map stripSlashes).filter
    (fun p => !p.isEmpty && !startsWithDot p))

lemma splitNl_append_newline (l rest : Str) (hl : '\n' ∉ l) :
    splitNl (l ++ '\n' :: rest) = l :: splitNl rest := by
  induction l with
  | nil => simp [splitNl]
  | cons c l ih =>
    have hc : c ≠ '\n' := fun h => hl (h ▸ List.mem_cons_self c l)
    have hl' : '\n' ∉ l := fun h => hl (List.mem_cons_of_mem c h)
    show splitNl (c :: (l ++ '\n' :: rest)) = (c :: l) :: splitNl rest
    rw [splitNl, ih hl']
    simp [hc]

lemma splitNl_joinNl (lines : List Str) (hnl : ∀ l ∈ lines, '\n' ∉ l)
    (hne : lines ≠ []) :
    splitNl (joinNl lines ++ ['\n']) = lines ++ [[]] := by
  induction lines with
  | nil => exact absurd rfl hne
  | cons l ls ih =>
    cases ls with
    | nil =>
      have hl : '\n' ∉ l := hnl l (List.mem_cons_self l [])
      simpa [joinNl, splitNl] using splitNl_append_newline l [] hl
    | cons l' ls' =>
      have hl : '\n' ∉ l := hnl l (List.mem_cons_self l _)
      have hrest : ∀ x ∈ l' :: ls', '\n' ∉ x := fun x hx =>
        hnl x (List.mem_cons_of_mem l hx)
      calc splitNl (joinNl (l :: l' :: ls') ++ ['\n'])
          = splitNl (l ++ '\n' :: (joinNl (l' :: ls') ++ ['\n'])) := by
            rw [show joinNl (l :: l' :: ls') = l ++ '\n' :: joinNl (l' :: ls') from rfl,
              List.append_assoc, List.cons_append]
        _ = l :: splitNl (joinNl (l' :: ls') ++ ['\n']) :=
            splitNl_append_newline l _ hl
        _ = l :: (l' :: ls' ++ [[]]) := by rw [ih hrest (by simp)]
        _ = (l :: l' :: ls') ++ [[]] := rfl

/-- Validity of a skill identifier for the purposes of file round-tripping:
non-empty, not dot-prefixed, and free of newlines. -/
def validSkillId (id : Str) : Prop :=
  id ≠ [] ∧ startsWithDot id = false ∧ '\n' ∉ id

instance (id : Str) : Decidable (validSkillId id) := by
  unfold validSkillId; infer_instance

lemma listCheckedOutSkillsOfContent_roundTrip (folders : List Str)
    (hv : ∀ id ∈ folders, validSkillId id) :
    listCheckedOutSkillsOfContent (sparseFileOfSkills folders) = folders := by
  cases folders with
  | nil => rfl
  | cons f fs =>
    have hnl : ∀ l ∈ (f :: fs).map skillPattern, '\n' ∉ l := by
      intro l hlmem
      rw [List.mem_map] at hlmem
      obtain ⟨id, hid, rfl⟩ := hlmem
      intro hmem
      have h3 := (hv id hid).2.2
      unfold skillPattern at hmem
      rcases List.mem_cons.mp hmem with h | h
      · exact absurd h.symm (by decide)
      · rcases List.mem_append.mp h with h | h
        · exact h3 h
        · rcases List.mem_singleton.mp h with h
          exact absurd h (by decide)
    have hne : ((f :: fs).map skillPattern) ≠ [] := by simp
    unfold listCheckedOutSkillsOfContent sparseFileOfSkills
    rw [splitNl_joinNl _ hnl hne]
    have hfilter1 :
        (((f :: fs).map skillPattern ++ [[]]).filter (fun l => !l.isEmpty)) =
        (f :: fs).map skillPattern := by
      rw [List.filter_append]
      have h1 : (((f :: fs).map skillPattern).filter (fun l => !l.isEmpty)) =
          (f :: fs).map skillPattern := by
        rw [List.filter_eq_self]
        intro a ha
        rw [List.mem_map] at ha
        obtain ⟨id, _, rfl⟩ := ha
        simp [skillPattern]
      have h2 : (([[]] : List Str).filter (fun l => !l.isEmpty)) = [] := rfl
      rw [h1, h2, List.append_nil]
    rw [hfilter1, List.map_map]
    have hcomp : (stripSlashes ∘ skillPattern) = id := funext stripSlashes_skillPattern
    rw [hcomp, List.map_id, List.filter_eq_self]
    intro id hid
    have h := hv id hid
    simp [h.1, h.2.1]

/-- One manage-mode reconcile run for skills: the installed list is decoded
from the current sparse-checkout file, the diff triple is computed against
the user's selection (runSkillsInstall), and the file is rewritten to exactly
the selection's patterns (updateSparseCheckout). Returns the diff triple and
the new file content. -/
def manageRunSkills (content : Str) (selected : List Str) :
    (List Str × List Str × List Str) × Str :=
  let installed := listCheckedOutSkillsOfContent content
  ((toAdd installed selected, toRemove installed selected,
    unchanged installed selected), sparseFileOfSkills selected)

lemma contains_eq_true_of_mem {l : List Str} {x : Str} (h : x ∈ l) :
    l.contains x = true := by
  exact List.elem_eq_true_of_mem h

lemma toAdd_self (l : List Str) : toAdd l l = [] := by
  rw [toAdd, List.filter_eq_nil_iff]
  intro a ha
  simpa using ha

lemma toRemove_self (l : List Str) : toRemove l l = [] := by
  rw [toRemove, List.filter_eq_nil_iff]
  intro a ha
  simpa using ha

/-- **C6.** Running the manage-mode reconcile twice with the same selected
identifier list yields empty added and removed sets on the second run, and
the persisted sparse-checkout file content is identical after both runs. -/
theorem reconcile_idempotent (content : Str) (selected : List Str)
    (hv : ∀ id ∈ selected, validSkillId id) :
    (manageRunSkills (manageRunSkills content selected).2 selected).1.1 = [] ∧
    (manageRunSkills (manageRunSkills content selected).2 selected).1.2.1 = [] ∧
    (manageRunSkills (manageRunSkills content selected).2 selected).2 =
      (manageRunSkills content selected).2 := by
  have h2 : (manageRunSkills content selected).2 = sparseFileOfSkills selected := rfl
  have hinst : listCheckedOutSkillsOfContent (sparseFileOfSkills selected) = selected :=
    listCheckedOutSkillsOfContent_roundTrip selected hv
  refine ⟨?_, ?_, ?_⟩
  · show toAdd
      (listCheckedOutSkillsOfContent (manageRunSkills content selected).2) selected = []
    rw [h2, hinst]
    exact toAdd_self selected
  · show toRemove
      (listCheckedOutSkillsOfContent (manageRunSkills content selected).2) selected = []
    rw [h2, hinst]
    exact toRemove_self selected
  · show sparseFileOfSkills selected = (manageRunSkills content selected).2
    rw [h2]

/-- Concrete instantiation of `reconcile_idempotent` at the selection
["a", "b"] starting from an arbitrary prior file content "/c/\n". -/
theorem reconcile_idempotent_witness :
    (manageRunSkills (manageRunSkills "/c/\n".data ["a".data, "b".data]).2
      ["a".data, "b".data]).1.1 = [] := by
  exact (reconcile_idempotent "/c/\n".data ["a".data, "b".data] (by decide)).1

/-! ## Transaction applier: sparseCloneSkills / sparseCloneSubagents
(src/lib/git.js)

The git binary and the filesystem are external; the model records the
applier's own actions as a trace (mkdir, rm, git invocations, the
sparse-checkout file write) and takes every git invocation's success or
failure from an explicit environment. Both clone functions share this
control flow; they differ only in the repository URL and the pattern shape,
neither of which affects the traced behavior.
-/

/-- Git invocations issued by the applier. -/
inductive GitCmd
  | gitInit
  | remoteSetUrl
  | remoteAdd
  | fetchOrigin
  | sparseInit
  | lsRemote
  | checkoutB
  | clone
  | checkout
deriving DecidableEq

/-- Applier actions observable on the target directory. -/
inductive Action
  | mkdirTarget
  | rmTarget
  | run (c : GitCmd)
  | writeSparse (content : Str)
deriving DecidableEq

/-- Success or failure of each git invocation, supplied by the environment. -/
structure CloneEnv where
  initOk : Bool
  remoteSetUrlOk : Bool
  remoteAddOk : Bool
  fetchOk : Bool
  sparseInitOk : Bool
  checkoutBOk : Bool
  cloneOk : Bool
  checkoutOk : Bool

/-- State of the target path before the call. `entries` is only meaningful
when `pathExists` is true. -/
structure Target where
  pathExists : Bool
  entries : List Str

/-- Runs a list of steps in order, recording each attempted step's action and
stopping at the first failure. -/
def runSteps : List (Action × Bool) → List Action × Bool
  | [] => ([], true)
  | (a, ok) :: rest =>
    if ok then
      let r := runSteps rest
      (a :: r.1, r.2)
    else ([a], false)

/-- Steps of `configureSparseCheckout`: `git sparse-checkout init --no-cone`
followed by writing `patterns + '\n'` to .git/info/sparse-checkout. -/
def configureSparseSteps (env : CloneEnv) (patterns : Str) : List (Action × Bool) :=
  [(Action.run GitCmd.sparseInit, env.sparseInitOk),
   (Action.writeSparse (patterns ++ ['\n']), true)]

/-- Steps of `initializeRepoInExistingDirectory`: init, point origin at the
upstream URL (set-url with an add fallback), fetch, configure the sparse
scope, resolve the default remote branch (failure swallowed, defaulting to
main), and check out that branch. -/
def adoptionSteps (env : CloneEnv) (patterns : Str) : List (Action × Bool) :=
  [(Action.run GitCmd.gitInit, env.initOk)] ++
  (if env.remoteSetUrlOk then [(Action.run GitCmd.remoteSetUrl, true)]
   else [(Action.run GitCmd.remoteSetUrl, true),
         (Action.run GitCmd.remoteAdd, env.remoteAddOk)]) ++
  [(Action.run GitCmd.fetchOrigin, env.fetchOk)] ++
  configureSparseSteps env patterns ++
  [(Action.run GitCmd.lsRemote, true),
   (Action.run GitCmd.checkoutB, env.checkoutBOk)]

/-- Steps of the fresh-clone branch: blob-filtered no-checkout sparse clone,
sparse scope configuration, then checkout. -/
def freshCloneSteps (env : CloneEnv) (patterns : Str) : List (Action × Bool) :=
  [(Action.run GitCmd.clone, env.cloneOk)] ++
  configureSparseSteps env patterns ++
  [(Action.run GitCmd.checkout, env.checkoutOk)]

/-- The adoption test of `sparseCloneSkills`: the target pre-exists and holds
at least one entry other than .DS_Store. -/
def shouldAdopt (t : Target) : Bool :=
  t.pathExists && !(t.entries.filter (fun e => e ≠ ".DS_Store".data)).isEmpty

/-- Step list chosen by `sparseCloneSkills` after its precondition check. -/
def chosenSteps (t : Target) (env : CloneEnv) (patterns : Str) : List (Action × Bool) :=
  if shouldAdopt t then adoptionSteps env patterns else freshCloneSteps env patterns

/-- Model of `sparseCloneSkills` / `sparseCloneSubagents`: rejects a target
that already contains a .git entry, creates the directory, runs the chosen
step list, and on failure removes the directory when (and only when) the
path did not exist before the call. Returns the action trace and whether the
call succeeded. -/
def sparseCloneModel (t : Target) (env : CloneEnv) (patterns : Str) :
    List Action × Bool :=
  if t.pathExists && t.entries.contains ".git".data then ([], false)
  else
    let r := runSteps (chosenSteps t env patterns)
    if r.2 then (Action.mkdirTarget :: r.1, true)
    else
      (Action.mkdirTarget :: r.1 ++
        (if !t.pathExists then [Action.rmTarget] else []), false)

/-- Whether the target directory exists after replaying a trace from a given
initial existence state. -/
def dirExistsAfter (initial : Bool) : List Action → Bool
  | [] => initial
  | Action.mkdirTarget :: rest => dirExistsAfter true rest
  | Action.rmTarget :: rest => dirExistsAfter false rest
  | _ :: rest => dirExistsAfter initial rest

lemma dirExistsAfter_append (b : Bool) (l₁ l₂ : List Action) :
    dirExistsAfter b (l₁ ++ l₂) = dirExistsAfter (dirExistsAfter b l₁) l₂ := by
  induction l₁ generalizing b with
  | nil => rfl
  | cons a rest ih => cases a <;> simp [dirExistsAfter, ih]

lemma runSteps_actions {P : Action → Prop} :
    ∀ (steps : List (Action × Bool)), (∀ p ∈ steps, P p.1) →
      ∀ a ∈ (runSteps steps).1, P a := by
  intro steps
  induction steps with
  | nil => intro _ a ha; simp [runSteps] at ha
  | cons p rest ih =>
    intro hsteps a ha
    obtain ⟨a', ok⟩ := p
    rw [runSteps] at ha
    by_cases hok : ok = true
    · rw [if_pos hok] at ha
      rcases List.mem_cons.mp ha with h | h
      · exact h ▸ hsteps (a', ok) (List.mem_cons_self _ _)
      · exact ih (fun q hq => hsteps q (List.mem_cons_of_mem _ hq)) a h
    · rw [if_neg hok] at ha
      rcases List.mem_singleton.mp ha with h
      exact h ▸ hsteps (a', ok) (List.mem_cons_self _ _)

lemma chosenSteps_no_rm (t : Target) (env : CloneEnv) (patterns : Str) :
    ∀ p ∈ chosenSteps t env patterns, p.1 ≠ Action.rmTarget := by
  intro p hp
  unfold chosenSteps adoptionSteps freshCloneSteps configureSparseSteps at hp
  split at hp
  · split at hp
    · simp at hp
      rcases hp with h | h | h | h | h | h | h <;> simp [h]
    · simp at hp
      rcases hp with h | h | h | h | h | h | h | h <;> simp [h]
  · simp at hp
    rcases hp with h | h | h | h <;> simp [h]

lemma adoptionSteps_no_clone (env : CloneEnv) (patterns : Str) :
    ∀ p ∈ adoptionSteps env patterns, p.1 ≠ Action.run GitCmd.clone := by
  intro p hp
  unfold adoptionSteps configureSparseSteps at hp
  split at hp
  · simp at hp
    rcases hp with h | h | h | h | h | h | h <;> simp [h]
  · simp at hp
    rcases hp with h | h | h | h | h | h | h | h <;> simp [h]

lemma runSteps_cons_head (a : Action) (ok : Bool) (rest : List (Action × Bool)) :
    a ∈ (runSteps ((a, ok) :: rest)).1 := by
  cases ok <;> simp [runSteps]

lemma sparseCloneModel_unfold (t : Target) (env : CloneEnv) (patterns : Str) :
    sparseCloneModel t env patterns =
      if (t.pathExists && t.entries.contains ".git".data) = true then ([], false)
      else if (runSteps (chosenSteps t env patterns)).2 = true then
        (Action.mkdirTarget :: (runSteps (chosenSteps t env patterns)).1, true)
      else
        (Action.mkdirTarget :: (runSteps (chosenSteps t env patterns)).1 ++
          (if (!t.pathExists) = true then [Action.rmTarget] else []), false) := rfl

lemma sparseCloneModel_rm_not_mem (t : Target) (env : CloneEnv) (patterns : Str)
    (h : t.pathExists = true) :
    Action.rmTarget ∉ (sparseCloneModel t env patterns).1 := by
  have hnorm : ∀ a ∈ (runSteps (chosenSteps t env patterns)).1,
      a ≠ Action.rmTarget :=
    runSteps_actions _ (chosenSteps_no_rm t env patterns)
  rw [sparseCloneModel_unfold]
  by_cases hguard : (t.pathExists && t.entries.contains ".git".data) = true
  · rw [if_pos hguard]
    simp
  · rw [if_neg hguard]
    by_cases hr : (runSteps (chosenSteps t env patterns)).2 = true
    · rw [if_pos hr]
      intro hmem
      rcases List.mem_cons.mp hmem with hh | hh
      · simp at hh
      · exact hnorm _ hh rfl
    · rw [if_neg hr]
      simp only [h, Bool.not_true]
      rw [if_neg (by simp : ¬(false = true)), List.append_nil]
      intro hmem
      rcases List.mem_cons.mp hmem with hh | hh
      · simp at hh
      · exact hnorm _ hh rfl

/-- **C9.** A Materialize whose target directory already contains a .git
entry fails with an error before performing any action: the trace is empty
(nothing is created or touched) and the call reports failure. -/
theorem materialize_rejects_versioned (t : Target) (env : CloneEnv) (patterns : Str)
    (hex : t.pathExists = true) (hgit : ".git".data ∈ t.entries) :
    sparseCloneModel t env patterns = ([], false) := by
  rw [sparseCloneModel_unfold, if_pos]
  rw [hex]
  simp only [Bool.true_and]
  exact List.elem_eq_true_of_mem hgit

/-- Concrete instantiation of `materialize_rejects_versioned` at a target
holding a .git entry. -/
theorem materialize_rejects_versioned_witness :
    sparseCloneModel ⟨true, [".git".data, "a".data]⟩
      ⟨true, true, true, true, true, true, true, true⟩ "/a/".data = ([], false) :=
  materialize_rejects_versioned _ _ _ rfl (by decide)

/-- **C3.** If any step of a Materialize fails after the target directory was
freshly created by this call (the path did not exist before), the applier's
trace leaves the directory removed; if the path existed before the call, the
trace never deletes it. -/
theorem materialize_cleanup (t : Target) (env : CloneEnv) (patterns : Str) :
    (t.pathExists = false → (sparseCloneModel t env patterns).2 = false →
      dirExistsAfter false (sparseCloneModel t env patterns).1 = false) ∧
    (t.pathExists = true → Action.rmTarget ∉ (sparseCloneModel t env patterns).1) := by
  constructor
  · intro hex hfail
    rw [sparseCloneModel_unfold] at hfail ⊢
    rw [hex] at hfail ⊢
    simp only [Bool.false_and] at hfail ⊢
    rw [if_neg (by simp : ¬(false = true))] at hfail ⊢
    by_cases hr : (runSteps (chosenSteps t env patterns)).2 = true
    · rw [if_pos hr] at hfail
      simp at hfail
    · rw [if_neg hr]
      simp only [Bool.not_false, if_true]
      show dirExistsAfter false
        ((Action.mkdirTarget :: (runSteps (chosenSteps t env patterns)).1) ++
          [Action.rmTarget]) = false
      rw [dirExistsAfter_append]
      rfl
  · exact sparseCloneModel_rm_not_mem t env patterns

/-- Concrete instantiation of `materialize_cleanup`: a fresh (non-existing)
target whose checkout step fails ends with the directory absent, and a
pre-existing target run never removes it. -/
theorem materialize_cleanup_witness :
    dirExistsAfter false
      ((sparseCloneModel ⟨false, []⟩
        ⟨true, true, true, true, true, true, true, false⟩ "/a/".data).1) = false ∧
    Action.rmTarget ∉
      (sparseCloneModel ⟨true, ["x".data]⟩
        ⟨true, true, true, true, true, true, true, false⟩ "/a/".data).1 := by
  constructor
  · exact (materialize_cleanup ⟨false, []⟩
      ⟨true, true, true, true, true, true, true, false⟩ "/a/".data).1 rfl (by decide)
  · exact (materialize_cleanup ⟨true, ["x".data]⟩
      ⟨true, true, true, true, true, true, true, false⟩ "/a/".data).2 rfl

/-- **C4.** A Materialize whose target exists, is not version-controlled, and
contains an entry other than .DS_Store takes the in-place adoption sub-path
(init, point origin, fetch, narrow sparse scope, checkout the default
branch) instead of a fresh clone, and its trace never deletes the
pre-existing directory or its contents. -/
theorem materialize_adopts_existing (t : Target) (env : CloneEnv) (patterns : Str)
    (hex : t.pathExists = true) (hnogit : ".git".data ∉ t.entries)
    (hfiltered : t.entries.filter (fun e => e ≠ ".DS_Store".data) ≠ []) :
    chosenSteps t env patterns = adoptionSteps env patterns ∧
    Action.run GitCmd.gitInit ∈ (sparseCloneModel t env patterns).1 ∧
    Action.run GitCmd.clone ∉ (sparseCloneModel t env patterns).1 ∧
    Action.rmTarget ∉ (sparseCloneModel t env patterns).1 := by
  have hguard : ¬((t.pathExists && t.entries.contains ".git".data) = true) := by
    rw [hex]
    simp only [Bool.true_and]
    exact fun hc => hnogit (List.mem_of_elem_eq_true hc)
  have hadopt : shouldAdopt t = true := by
    unfold shouldAdopt
    rw [hex]
    simp only [Bool.true_and, Bool.not_eq_true']
    rw [List.isEmpty_eq_false]
    exact hfiltered
  have hchosen : chosenSteps t env patterns = adoptionSteps env patterns := by
    unfold chosenSteps
    rw [if_pos hadopt]
  have hinit : Action.run GitCmd.gitInit ∈ (runSteps (chosenSteps t env patterns)).1 := by
    rw [hchosen]
    unfold adoptionSteps
    exact runSteps_cons_head _ _ _
  have hclone : ∀ a ∈ (runSteps (chosenSteps t env patterns)).1,
      a ≠ Action.run GitCmd.clone := by
    rw [hchosen]
    exact runSteps_actions _ (adoptionSteps_no_clone env patterns)
  refine ⟨hchosen, ?_, ?_, sparseCloneModel_rm_not_mem t env patterns hex⟩
  · rw [sparseCloneModel_unfold, if_neg hguard]
    by_cases hr : (runSteps (chosenSteps t env patterns)).2 = true
    · rw [if_pos hr]
      exact List.mem_cons_of_mem _ hinit
    · rw [if_neg hr]
      simp only [hex, Bool.not_true]
      rw [if_neg (by simp : ¬(false = true)), List.append_nil]
      exact List.mem_cons_of_mem _ hinit
  · rw [sparseCloneModel_unfold, if_neg hguard]
    by_cases hr : (runSteps (chosenSteps t env patterns)).2 = true
    · rw [if_pos hr]
      intro hmem
      rcases List.mem_cons.mp hmem with hh | hh
      · simp at hh
      · exact hclone _ hh rfl
    · rw [if_neg hr]
      simp only [hex, Bool.not_true]
      rw [if_neg (by simp : ¬(false = true)), List.append_nil]
      intro hmem
      rcases List.mem_cons.mp hmem with hh | hh
      · simp at hh
      · exact hclone _ hh rfl

/-- Concrete instantiation of `materialize_adopts_existing` at a pre-existing
directory holding one ordinary file. -/
theorem materialize_adopts_existing_witness :
    Action.run GitCmd.gitInit ∈
      (sparseCloneModel ⟨true, ["notes.md".data]⟩
        ⟨true, true, true, true, true, true, true, true⟩ "/a/".data).1 :=
  (materialize_adopts_existing ⟨true, ["notes.md".data]⟩
    ⟨true, true, true, true, true, true, true, true⟩ "/a/".data rfl (by decide)
    (by decide)).2.1

/-! ## Update-availability checker: checkSkillsForUpdates /
checkSubagentsForUpdates (src/lib/git.js)

Both functions share this control flow: return the empty set when the target
is not a repository; fetch once and resolve the current branch once, any
failure there caught by the outer handler with the set still empty; then for
each identifier run a scoped diff, adding the identifier when the trimmed
diff output is non-empty and swallowing a failed diff for that identifier
only.
-/

/-- JavaScript String.prototype.trim (whitespace characters as relevant to
git diff output). -/
def isJsWhitespace (c : Char) : Bool :=
  c = ' ' || c = '\t' || c = '\n' || c = '\r' ||
  c = '\x0b' || c = '\x0c'

/-- Whitespace trimming from both ends. -/
def trimStr (s : Str) : Str :=
  ((s.dropWhile isJsWhitespace).reverse.dropWhile isJsWhitespace).reverse

/-- JavaScript Set.prototype.add: appends unless already present. -/
def jsSetAdd (s : List Str) (x : Str) : List Str :=
  if x ∈ s then s else s ++ [x]

/-- Environment for one update check: whether .git exists, whether the fetch
succeeds, the resolved current branch (none = rev-parse failed), and each
identifier's scoped diff outcome (none = the diff command failed). -/
structure UpdateEnv where
  hasGitDir : Bool
  fetchOk : Bool
  branchRes : Option Str
  diffRes : Str → Option Str

/-- Verdict of the per-identifier loop body: member iff the scoped diff
succeeded with non-empty trimmed output. -/
def diffShowsUpdate (env : UpdateEnv) (id : Str) : Bool :=
  match env.diffRes id with
  | some out => !(trimStr out).isEmpty
  | none => false

/-- Model of `checkSkillsForUpdates` / `checkSubagentsForUpdates`. -/
def checkForUpdatesModel (env : UpdateEnv) (ids : List Str) : List Str :=
  if !env.hasGitDir then []
  else if !env.fetchOk then []
  else
    match env.branchRes with
    | none => []
    | some _ => ids.foldl (fun acc id =>
        if diffShowsUpdate env id then jsSetAdd acc id else acc) []

lemma mem_jsSetAdd {s : List Str} {x y : Str} :
    y ∈ jsSetAdd s x ↔ y ∈ s ∨ y = x := by
  unfold jsSetAdd
  by_cases hx : x ∈ s
  · rw [if_pos hx]
    constructor
    · exact Or.inl
    · rintro (h | rfl)
      · exact h
      · exact hx
  · rw [if_neg hx]
    simp

lemma mem_updatesFold (env : UpdateEnv) (ids : List Str) (acc : List Str) (y : Str) :
    y ∈ ids.foldl (fun acc id =>
        if diffShowsUpdate env id then jsSetAdd acc id else acc) acc ↔
      y ∈ acc ∨ (y ∈ ids ∧ diffShowsUpdate env y = true) := by
  induction ids generalizing acc with
  | nil => simp
  | cons id rest ih =>
    rw [List.foldl_cons, ih]
    by_cases hd : diffShowsUpdate env id = true
    · rw [if_pos hd, mem_jsSetAdd]
      constructor
      · rintro ((h | rfl) | h)
        · exact Or.inl h
        · exact Or.inr ⟨List.mem_cons_self _ _, hd⟩
        · exact Or.inr ⟨List.mem_cons_of_mem _ h.1, h.2⟩
      · rintro (h | ⟨hmem, hy⟩)
        · exact Or.inl (Or.inl h)
        · rcases List.mem_cons.mp hmem with rfl | h
          · exact Or.inl (Or.inr rfl)
          · exact Or.inr ⟨h, hy⟩
    · rw [if_neg hd]
      constructor
      · rintro (h | h)
        · exact Or.inl h
        · exact Or.inr ⟨List.mem_cons_of_mem _ h.1, h.2⟩
      · rintro (h | ⟨hmem, hy⟩)
        · exact Or.inl h
        · rcases List.mem_cons.mp hmem with rfl | h
          · exact absurd hy hd
          · exact Or.inr ⟨h, hy⟩

/-- **C8.** In the update check, a failed fetch or a failed current-branch
resolution yields the empty result set (no partial result); otherwise a
single identifier's failed scoped diff excludes only that identifier, and
every identifier whose diff succeeds is a member exactly when its trimmed
diff output is non-empty. -/
theorem checkForUpdates_failurePolicy (env : UpdateEnv) (ids : List Str) :
    ((env.fetchOk = false ∨ env.branchRes = none) →
      checkForUpdatesModel env ids = []) ∧
    (∀ b, env.fetchOk = true → env.branchRes = some b → env.hasGitDir = true →
      ∀ id ∈ ids,
        (env.diffRes id = none → id ∉ checkForUpdatesModel env ids) ∧
        (∀ out, env.diffRes id = some out →
          (id ∈ checkForUpdatesModel env ids ↔ ¬(trimStr out).isEmpty = true))) := by
  constructor
  · intro hfail
    unfold checkForUpdatesModel
    rcases hfail with h | h
    · rw [h]
      by_cases hg : env.hasGitDir = true <;> simp [hg]
    · rw [h]
      by_cases hg : env.hasGitDir = true <;>
        by_cases hf : env.fetchOk = true <;> simp [hg, hf]
  · intro b hf hb hg id hid
    have hmodel : checkForUpdatesModel env ids = ids.foldl (fun acc i =>
        if diffShowsUpdate env i then jsSetAdd acc i else acc) [] := by
      unfold checkForUpdatesModel
      rw [hg, hf, hb]
      simp
    constructor
    · intro hdiff hmem
      rw [hmodel, mem_updatesFold] at hmem
      rcases hmem with h | ⟨_, hshow⟩
      · simp at h
      · rw [diffShowsUpdate, hdiff] at hshow
        exact Bool.false_ne_true hshow
    · intro out hout
      rw [hmodel, mem_updatesFold]
      constructor
      · rintro (h | ⟨_, hshow⟩)
        · simp at h
        · rw [diffShowsUpdate, hout] at hshow
          simpa using hshow
      · intro hne
        refine Or.inr ⟨hid, ?_⟩
        rw [diffShowsUpdate, hout]
        simpa using hne

/-- Concrete instantiation of `checkForUpdates_failurePolicy`: with a
successful fetch and branch resolution, a failing diff for "b" excludes only
"b" while "a" (non-empty diff) is reported. -/
theorem checkForUpdates_failurePolicy_witness :
    "b".data ∉ checkForUpdatesModel
      ⟨true, true, some "main".data,
        fun id => if id = "a".data then some "M a/x.md".data else none⟩
      ["a".data, "b".data] := by
  exact ((checkForUpdates_failurePolicy
    ⟨true, true, some "main".data,
      fun id => if id = "a".data then some "M a/x.md".data else none⟩
    ["a".data, "b".data]).2 "main".data rfl rfl rfl "b".data (by decide)).1
    (by decide)

/-! ## Interactive item selection: promptItemSelection (src/lib/prompts.js)

The JavaScript Set holding the selection is modelled as a duplicate-free
list in insertion order (`jsSetAdd` above appends new elements at the end,
`Set.prototype.delete` removes in place). Terminal rendering is outside the
model; the keypress handler's state transitions and the final
`resolve(Array.from(selected))` are modelled exactly.
-/

/-- An entry of the items array passed to promptItemSelection. -/
structure Item where
  id : Str
  name : Str
  description : Str

/-- JavaScript Set construction from a list: first-occurrence order. -/
def jsSetOf (l : List Str) : List Str := l.foldl jsSetAdd []

/-- Initial selection state: all items when nothing is installed, otherwise
exactly the installed items. -/
def initialSelected (items : List Item) (installedItems : List Str) : List Str :=
  if installedItems.length > 0 then jsSetOf installedItems
  else jsSetOf (items.map Item.id)

/-- Mutable state of the selection prompt. -/
structure SelState where
  cursor : Nat
  selected : List Str
  expanded : List Str

/-- Keys the handler reacts to. -/
inductive Key
  | up
  | down
  | right
  | left
  | space
  | a
  | ret

/-- JavaScript Set.prototype.delete: removes the element, keeping order. -/
def jsSetDelete (s : List Str) (x : Str) : List Str := s.filter (fun y => y ≠ x)

/-- One keypress of the handler (all keys except confirmation). -/
def keypress (items : List Item) (st : SelState) : Key → SelState
  | Key.up =>
    { st with cursor := if st.cursor > 0 then st.cursor - 1 else items.length - 1 }
  | Key.down =>
    { st with cursor := if st.cursor < items.length - 1 then st.cursor + 1 else 0 }
  | Key.right =>
    match items[st.cursor]? with
    | some it => { st with expanded := jsSetAdd st.expanded it.id }
    | none => st
  | Key.left =>
    match items[st.cursor]? with
    | some it => { st with expanded := jsSetDelete st.expanded it.id }
    | none => st
  | Key.space =>
    match items[st.cursor]? with
    | some it =>
      if it.id ∈ st.selected then { st with selected := jsSetDelete st.selected it.id }
      else { st with selected := jsSetAdd st.selected it.id }
    | none => st
  | Key.a =>
    if st.selected.length = items.length then { st with selected := [] }
    else { st with selected := items.foldl (fun s it => jsSetAdd s it.id) st.selected }
  | Key.ret => st

/-- The prompt loop: keys are consumed in order; a confirmation with a
non-empty selection resolves with `Array.from(selected)` (the selection in
insertion order); a confirmation with an empty selection re-prompts. -/
def promptLoop (items : List Item) (st : SelState) : List Key → Option (List Str)
  | [] => none
  | Key.ret :: ks =>
    if st.selected.isEmpty then promptLoop items st ks else some st.selected
  | k :: ks => promptLoop items (keypress items st k) ks

/-- Model of promptItemSelection: run the loop from cursor 0 and the initial
selection. -/
def promptItemSelectionModel (items : List Item) (installedItems : List Str)
    (keys : List Key) : Option (List Str) :=
  promptLoop items ⟨0, initialSelected items installedItems, []⟩ keys

lemma mem_jsSetOf_aux (l : List Str) (acc : List Str) (y : Str) :
    y ∈ l.foldl jsSetAdd acc ↔ y ∈ acc ∨ y ∈ l := by
  induction l generalizing acc with
  | nil => simp
  | cons x rest ih =>
    rw [List.foldl_cons, ih, mem_jsSetAdd]
    constructor
    · rintro ((h | rfl) | h)
      · exact Or.inl h
      · exact Or.inr (List.mem_cons_self _ _)
      · exact Or.inr (List.mem_cons_of_mem _ h)
    · rintro (h | h)
      · exact Or.inl (Or.inl h)
      · rcases List.mem_cons.mp h with rfl | h
        · exact Or.inl (Or.inr rfl)
        · exact Or.inr h

lemma mem_jsSetOf (l : List Str) (y : Str) : y ∈ jsSetOf l ↔ y ∈ l := by
  rw [jsSetOf, mem_jsSetOf_aux]
  simp

/-- **C10.** With an empty installed-items list the prompt's initial
selection holds exactly the available item ids (everything pre-selected);
with a non-empty installed-items list it holds exactly the installed
items. -/
theorem promptInitialSelection (items : List Item) (installedItems : List Str) :
    (installedItems = [] →
      ∀ x, x ∈ initialSelected items installedItems ↔ x ∈ items.map Item.id) ∧
    (installedItems ≠ [] →
      ∀ x, x ∈ initialSelected items installedItems ↔ x ∈ installedItems) := by
  constructor
  · intro hnil x
    rw [initialSelected, hnil]
    simp only [List.length_nil, gt_iff_lt, lt_irrefl, if_false]
    exact mem_jsSetOf _ x
  · intro hne x
    rw [initialSelected, if_pos (List.length_pos.mpr hne)]
    exact mem_jsSetOf _ x

/-- Concrete instantiation of `promptInitialSelection`: with nothing
installed both catalog items are pre-selected; with ["b"] installed only "b"
is. -/
theorem promptInitialSelection_witness :
    ("a".data ∈ initialSelected
      [⟨"a".data, [], []⟩, ⟨"b".data, [], []⟩] []) ∧
    ("a".data ∉ initialSelected
      [⟨"a".data, [], []⟩, ⟨"b".data, [], []⟩] ["b".data]) := by
  constructor
  · exact ((promptInitialSelection [⟨"a".data, [], []⟩, ⟨"b".data, [], []⟩] []).1
      rfl "a".data).mpr (by decide)
  · intro hmem
    have h := ((promptInitialSelection [⟨"a".data, [], []⟩, ⟨"b".data, [], []⟩]
      ["b".data]).2 (by decide) "a".data).mp hmem
    exact absurd h (by decide)

/-- The two-item catalog of the ordering counterexample. -/
def cexItems : List Item := [⟨"a".data, [], []⟩, ⟨"b".data, [], []⟩]

/-- Installed list of the ordering counterexample: both items, catalog
order. -/
def cexInstalled : List Str := ["a".data, "b".data]

/-- Key sequence of the ordering counterexample: toggle the first item off,
toggle it back on, confirm. -/
def cexKeys : List Key := [Key.space, Key.space, Key.ret]

/-- **C5 counterexample.** Deselecting and reselecting item "a" makes the
prompt resolve ["b", "a"] (Set insertion order); with both items installed
the unchanged set is then ["b", "a"], which does not preserve the catalog
listing order ["a", "b"]. -/
theorem diffOrder_counterexample :
    promptItemSelectionModel cexItems cexInstalled cexKeys =
      some ["b".data, "a".data] ∧
    unchanged cexInstalled ["b".data, "a".data] = ["b".data, "a".data] ∧
    ¬ List.Sublist (unchanged cexInstalled ["b".data, "a".data])
        (cexItems.map Item.id) := by
  refine ⟨by decide, by decide, ?_⟩
  intro hsub
  have : unchanged cexInstalled ["b".data, "a".data] = ["b".data, "a".data] := by decide
  rw [this] at hsub
  have hord := hsub
  have : ¬ List.Sublist ["b".data, "a".data] (cexItems.map Item.id) := by decide
  exact this hord

/-- **C5 amended.** The diff output lists preserve the relative order of
their source lists, not of the catalog: added and unchanged are sublists of
the selection list resolved by the prompt (Set insertion order), and removed
is a sublist of the installed list. -/
theorem diffOrder_amended (items : List Item) (installedItems : List Str)
    (keys : List Key) (sel : List Str)
    (_hsel : promptItemSelectionModel items installedItems keys = some sel) :
    List.Sublist (toAdd installedItems sel) sel ∧
    List.Sublist (unchanged installedItems sel) sel ∧
    List.Sublist (toRemove installedItems sel) installedItems := by
  exact ⟨List.filter_sublist sel, List.filter_sublist sel,
    List.filter_sublist installedItems⟩

/-- Concrete instantiation of `diffOrder_amended` at the counterexample
run. -/
theorem diffOrder_amended_witness :
    List.Sublist (unchanged cexInstalled ["b".data, "a".data])
      ["b".data, "a".data] :=
  (diffOrder_amended cexItems cexInstalled cexKeys ["b".data, "a".data]
    (by decide)).2.1

/-! ## Frontmatter metadata extraction: parseSkillFrontmatter
(src/lib/skills.js) and parseSubagentFrontmatter (src/unnamed/part_002)

The regular expressions are embedded with their backtracking semantics: for
each fragment with choice points the candidate continuations are enumerated
in the order the engine tries them (greedy quantifiers longest-consumed
first, lazy capture shortest first), and the first candidate on which the
rest of the pattern succeeds wins.

Skill parser: a ```skill fence wrapping a dashed block is tried first, the
bare dashed block second. Subagent parser: the bare dashed block is tried
first, the ```chatagent fence second. The JavaScript `a?.[1] || b?.[1]`
chain treats an empty capture as falsy and falls through to the second
pattern; a still-falsy result means no metadata.
-/

/-- Remainders after matching the fragment backslash-s* followed by a
newline, ordered as the backtracking engine tries them: the greedy star
consumes the longest whitespace run first, so candidates appear
longest-consumed first; each candidate is the text after one newline inside
the maximal whitespace run. -/
def wsNlRemainders : Str → List Str
  | [] => []
  | c :: rest =>
    if isJsWhitespace c then
      wsNlRemainders rest ++ (if c = '\n' then [rest] else [])
    else []

/-- Tries the continuation on each candidate remainder in order, as the
backtracking engine does, keeping the first success. -/
def firstSome : List Str → (Str → Option Str) → Option Str
  | [], _ => none
  | s :: rest, k =>
    match k s with
    | some r => some r
    | none => firstSome rest k

/-- Lazy capture up to the first occurrence of a literal terminator: the
captured prefix grows only until the terminator first matches. -/
def captureTo (pat : Str) : Str → Option Str
  | [] => if pat.isPrefixOf ([] : Str) then some [] else none
  | c :: rest =>
    if pat.isPrefixOf (c :: rest) then some []
    else (captureTo pat rest).map (fun pre => c :: pre)

/-- Lazy capture up to the skill fence terminator: a literal newline and
three dashes followed by whitespace and a newline. -/
def captureToDashNl : Str → Option Str
  | [] => none
  | c :: rest =>
    if "\n---".data.isPrefixOf (c :: rest) ∧ wsNlRemainders ((c :: rest).drop 4) ≠ []
    then some []
    else (captureToDashNl rest).map (fun pre => c :: pre)

/-- Match of the bare frontmatter regex (anchored at the start): three
dashes, whitespace and a newline, the lazy capture, then a newline and three
dashes. Shared by both parsers. -/
def standardMatch (s : Str) : Option Str :=
  if "---".data.isPrefixOf s then
    firstSome (wsNlRemainders (s.drop 3)) (captureTo "\n---".data)
  else none

/-- Match of the skill fence regex at one start position. -/
def matchSkillFenceAt (s : Str) : Option Str :=
  if "```skill".data.isPrefixOf s then
    firstSome (wsNlRemainders (s.drop 8)) (fun r1 =>
      if "---".data.isPrefixOf r1 then
        firstSome (wsNlRemainders (r1.drop 3)) captureToDashNl
      else none)
  else none

/-- Leftmost match of the skill fence regex. -/
def skillFenceMatch : Str → Option Str
  | [] => none
  | c :: rest =>
    match matchSkillFenceAt (c :: rest) with
    | some b => some b
    | none => skillFenceMatch rest

/-- Match of the chatagent fence regex at one start position (its terminator
is a bare newline and three dashes). -/
def matchChatAgentAt (s : Str) : Option Str :=
  if "```chatagent".data.isPrefixOf s then
    firstSome (wsNlRemainders (s.drop 12)) (fun r1 =>
      if "---".data.isPrefixOf r1 then
        firstSome (wsNlRemainders (r1.drop 3)) (captureTo "\n---".data)
      else none)
  else none

/-- Leftmost match of the chatagent fence regex. -/
def chatAgentMatch : Str → Option Str
  | [] => none
  | c :: rest =>
    match matchChatAgentAt (c :: rest) with
    | some b => some b
    | none => chatAgentMatch rest

/-- Falsiness filtering of a capture: an empty capture behaves like a
missing one in the JavaScript or-chain. -/
def nonEmptyBlock : Option Str → Option Str
  | some s => if s.isEmpty then none else some s
  | none => none

/-- The or-chain over two captures followed by the falsiness guard: the
first non-empty capture, if any. -/
def pickBlock (a b : Option Str) : Option Str :=
  match nonEmptyBlock a with
  | some s => some s
  | none => nonEmptyBlock b

/-- Frontmatter block chosen by the skill parser: fence first. -/
def skillFrontmatterBlock (content : Str) : Option Str :=
  pickBlock (skillFenceMatch content) (standardMatch content)

/-- Frontmatter block chosen by the subagent parser: bare form first. -/
def subagentFrontmatterBlock (content : Str) : Option Str :=
  pickBlock (standardMatch content) (chatAgentMatch content)

/-- Quote characters of the key-value regex's character classes. -/
def isQuote (c : Char) : Bool := c = '\'' || c = '"'

/-- Remainders after the greedy backslash-s* of the key-value regex, longest
consumed first. -/
def wsStarRemainders : Str → List Str
  | [] => [[]]
  | c :: rest =>
    if isJsWhitespace c then wsStarRemainders rest ++ [c :: rest] else [c :: rest]

/-- After the whitespace: an optional opening quote, then the longest
non-empty run of characters other than quotes and newlines. A consumed quote
followed by an empty run cannot be rescued by leaving the quote in place,
since the character class rejects the quote itself. -/
def keyValTail : Str → Option Str
  | [] => none
  | c :: rest =>
    if isQuote c then
      let body := rest.takeWhile (fun d => !(isQuote d) && d ≠ '\n')
      if body.isEmpty then none else some body
    else
      let body := (c :: rest).takeWhile (fun d => !(isQuote d) && d ≠ '\n')
      if body.isEmpty then none else some body

/-- Leftmost successful match of one key-value regex: at each occurrence of
the literal key the engine tries the tail; on failure the scan moves on. -/
def findKeyVal (key : Str) : Str → Option Str
  | [] => none
  | c :: rest =>
    match
      (if key.isPrefixOf (c :: rest) then
        firstSome (wsStarRemainders ((c :: rest).drop key.length)) keyValTail
      else none)
    with
    | some v => some v
    | none => findKeyVal key rest

/-- parseSkillFrontmatter: choose the block (fence first), then take the
first name and description key-value matches, trimmed, defaulting to the
empty string. -/
def parseSkillFrontmatter (content : Str) : Str × Str :=
  match skillFrontmatterBlock content with
  | none => ([], [])
  | some b =>
    ((findKeyVal "name:".data b).elim [] trimStr,
     (findKeyVal "description:".data b).elim [] trimStr)

/-- parseSubagentFrontmatter: choose the block (bare form first), then
extract the same two fields. -/
def parseSubagentFrontmatter (content : Str) : Str × Str :=
  match subagentFrontmatterBlock content with
  | none => ([], [])
  | some b =>
    ((findKeyVal "name:".data b).elim [] trimStr,
     (findKeyVal "description:".data b).elim [] trimStr)

/-- Subagent file of the precedence counterexample: a bare dashed block with
name A at the top, followed by a chatagent fence wrapping a dashed block
with name B. Both regexes match. -/
def exSubagentContent : Str :=
  "---\nname: A\n---\n```chatagent\n---\nname: B\n---\n```\n".data

/-- Skill file whose content matches both the fence and the bare form. -/
def exSkillContent : Str :=
  "---\nname: A\n---\n```skill\n---\nname: B\n---\n".data

/-- **C7 counterexample.** On a subagent file matching both forms the parser
uses the bare dashed block (name A), not the fenced block (name B): the
subagent parser checks the bare pattern first, contradicting the claim that
the fenced pattern is checked first for both parsers. -/
theorem frontmatterPrecedence_counterexample :
    standardMatch exSubagentContent = some "name: A".data ∧
    chatAgentMatch exSubagentContent = some "name: B".data ∧
    subagentFrontmatterBlock exSubagentContent = some "name: A".data ∧
    parseSubagentFrontmatter exSubagentContent = ("A".data, []) ∧
    "name: A".data ≠ "name: B".data := by
  refine ⟨by decide, by decide, by decide, by decide, by decide⟩

/-- **C7 amended.** When a file matches both metadata forms (with a
non-empty first-checked capture), the Skill parser uses the fenced form's
block, which it checks first, while the Subagent parser uses the bare dashed
form's block, which it checks first. -/
theorem frontmatterPrecedence_amended (content : Str) :
    (∀ bf bs, skillFenceMatch content = some bf → standardMatch content = some bs →
      bf ≠ [] → skillFrontmatterBlock content = some bf) ∧
    (∀ bs bc, standardMatch content = some bs → chatAgentMatch content = some bc →
      bs ≠ [] → subagentFrontmatterBlock content = some bs) := by
  constructor
  · intro bf bs hf _hs hne
    unfold skillFrontmatterBlock pickBlock nonEmptyBlock
    rw [hf]
    simp [List.isEmpty_eq_false.mpr hne]
  · intro bs bc hs _hc hne
    unfold subagentFrontmatterBlock pickBlock nonEmptyBlock
    rw [hs]
    simp [List.isEmpty_eq_false.mpr hne]

/-- Concrete instantiation of `frontmatterPrecedence_amended` at the file
matching both skill forms: the fenced block wins for the skill parser. -/
theorem frontmatterPrecedence_amended_witness :
    skillFrontmatterBlock exSkillContent = some "name: B".data :=
  (frontmatterPrecedence_amended exSkillContent).1 "name: B".data "name: A".data
    (by decide) (by decide) (by decide)

end AgentSkillsInstaller
